import Mathlib

/-!
Verification of the reduction-and-presentation pipeline of the realtime
voting dashboard (source: `streamlit-app.py`).

The embedding is a shallow one:

* A stream batch is a `List AggRecord`; the position in the list is the
  pandas dataframe row index (`pd.DataFrame(data)` indexes rows 0..n-1 in
  arrival order).
* The reduction at line 129,
  `results.loc[results.groupby('candidate_id')['total_votes'].idxmax()]`,
  is embedded by `reduce`: pandas `groupby` (with its default `sort=True`)
  enumerates the distinct grouping keys in ascending key order, and the
  per-group `idxmax` picks, inside each group, the first row (in original
  row order) attaining the group's maximum counter.  Grouping keys are
  modelled as `Nat`, standing for any linearly ordered key domain.
* The leading-record selection at line 130,
  `results.loc[results['total_votes'].idxmax()]`, is embedded by
  `leadingRecord`: `idxmax` over the reduced table returns the first row,
  in the reduced table's (key-ascending) order, attaining the overall
  maximum counter.
* `split_frame` (lines 82-84) chunks a table: slices `[i : i+rows]` for
  `i = 0, rows, 2*rows, ...`.
* `paginate_table` (lines 87-111) is embedded after the optional
  `sort_values` step at line 100: that step is a length-preserving row
  permutation whose exact algorithm (numpy's introsort via pandas default
  `kind='quicksort'`) lives outside this embedding, so `paginate_table`
  here receives the table as it stands when chunking begins.  The Python
  indexing `pages[current_page - 1]` raises `IndexError` when out of
  bounds; it is embedded as the `Option`-valued lookup `pages[i-1]?`,
  `none` standing for the index error.
* `fetch_voting_stats` (lines 26-44) wraps its database work in
  `try/except`; the database interaction is embedded as an oracle
  argument: `some (v, c)` when the connection and both count queries
  succeed, `none` when any step raises.  On `none` the function returns
  `(0, 0)` and emits the `st.error` message, mirroring the `except`
  branch; returning a value at all (rather than propagating an exception)
  is what "the rest of the refresh pass still runs" means here.
-/

/-- One partial-aggregate record from a stream topic (one row of the
dataframe built at line 128 or 159): grouping key (`candidate_id` /
`state`), counter (`total_votes` / `count`), and a payload standing for
the descriptive fields (`candidate_name`, `party_affiliation`,
`photo_url`). -/
structure AggRecord where
  key : Nat
  counter : Nat
  payload : Nat
deriving DecidableEq, Repr

/-- Maximum of the `counter` column of a list of records (0 when empty);
the value pandas `max` reports for the `total_votes` series. -/
def countersMax (l : List AggRecord) : Nat :=
  (l.map AggRecord.counter).foldr max 0

/-- pandas `Series.idxmax` followed by `.loc`: the first record (in row
order) whose counter attains the maximum of the list; `none` on an empty
list (pandas raises there). -/
def firstMaxRecord (l : List AggRecord) : Option AggRecord :=
  l.find? (fun r => r.counter = countersMax l)

/-- The rows of batch `B` whose grouping key is `k`: one pandas group. -/
def groupOf (B : List AggRecord) (k : Nat) : List AggRecord :=
  B.filter (fun r => r.key = k)

/-- Insert a key into an ascending duplicate-free key list, keeping it
ascending and duplicate-free. -/
def insertKeySorted (k : Nat) : List Nat → List Nat
  | [] => [k]
  | x :: xs =>
    if k < x then k :: x :: xs
    else if k = x then x :: xs
    else x :: insertKeySorted k xs

/-- The distinct grouping keys of a batch in ascending order: the group
enumeration order of pandas `groupby` with its default `sort=True`. -/
def sortedKeys (B : List AggRecord) : List Nat :=
  B.foldr (fun r acc => insertKeySorted r.key acc) []

/-- Embedding of line 129:
`results.loc[results.groupby('candidate_id')['total_votes'].idxmax()]`.
For each distinct key (ascending, pandas group order) keep the first row
of the group attaining the group's maximum counter. -/
def reduce (B : List AggRecord) : List AggRecord :=
  (sortedKeys B).filterMap (fun k => firstMaxRecord (groupOf B k))

/-- Embedding of line 130: `results.loc[results['total_votes'].idxmax()]`
applied to the reduced table — the first row of the reduced table (in its
key-ascending order) attaining the overall maximum counter. -/
def leadingRecord (B : List AggRecord) : Option AggRecord :=
  firstMaxRecord (reduce B)

example :
    reduce [⟨0, 10, 0⟩, ⟨1, 30, 1⟩, ⟨0, 25, 2⟩] =
      [⟨0, 25, 2⟩, ⟨1, 30, 1⟩] := by decide

example :
    leadingRecord [⟨0, 10, 0⟩, ⟨1, 30, 1⟩, ⟨0, 25, 2⟩] =
      some ⟨1, 30, 1⟩ := by decide

theorem countersMax_nil : countersMax [] = 0 := rfl

theorem countersMax_cons (a : AggRecord) (l : List AggRecord) :
    countersMax (a :: l) = max a.counter (countersMax l) := rfl

theorem le_countersMax {l : List AggRecord} {r : AggRecord} (h : r ∈ l) :
    r.counter ≤ countersMax l := by
  induction l with
  | nil => cases h
  | cons a t ih =>
    rw [countersMax_cons]
    rcases List.mem_cons.mp h with rfl | ht
    · exact Nat.le_max_left _ _
    · exact Nat.le_trans (ih ht) (Nat.le_max_right _ _)

theorem countersMax_attained {l : List AggRecord} (h : l ≠ []) :
    ∃ r ∈ l, r.counter = countersMax l := by
  induction l with
  | nil => exact absurd rfl h
  | cons a t ih =>
    rw [countersMax_cons]
    by_cases hle : countersMax t ≤ a.counter
    · exact ⟨a, List.mem_cons_self a t, (Nat.max_eq_left hle).symm⟩
    · have ht : t ≠ [] := by
        intro hnil
        rw [hnil, countersMax_nil] at hle
        exact hle (Nat.zero_le _)
      obtain ⟨r, hr, hrc⟩ := ih ht
      refine ⟨r, List.mem_cons_of_mem a hr, ?_⟩
      rw [hrc, Nat.max_eq_right (Nat.le_of_not_le hle)]

theorem countersMax_append (l₁ l₂ : List AggRecord) :
    countersMax (l₁ ++ l₂) = max (countersMax l₁) (countersMax l₂) := by
  induction l₁ with
  | nil => simp [countersMax_nil]
  | cons a t ih =>
    rw [List.cons_append, countersMax_cons, countersMax_cons, ih, Nat.max_assoc]

theorem firstMaxRecord_spec {l : List AggRecord} {r : AggRecord}
    (h : firstMaxRecord l = some r) :
    r ∈ l ∧ r.counter = countersMax l := by
  refine ⟨List.mem_of_find?_eq_some h, ?_⟩
  have := List.find?_some h
  exact of_decide_eq_true this

theorem firstMaxRecord_isSome {l : List AggRecord} (h : l ≠ []) :
    ∃ r, firstMaxRecord l = some r := by
  obtain ⟨r, hr, hrc⟩ := countersMax_attained h
  have : (l.find? (fun r => r.counter = countersMax l)).isSome :=
    List.find?_isSome.mpr ⟨r, hr, decide_eq_true hrc⟩
  exact Option.isSome_iff_exists.mp this

theorem mem_insertKeySorted (k a : Nat) (l : List Nat) :
    a ∈ insertKeySorted k l ↔ a = k ∨ a ∈ l := by
  induction l with
  | nil => simp [insertKeySorted]
  | cons x xs ih =>
    by_cases h1 : k < x
    · simp [insertKeySorted, h1]
    · by_cases h2 : k = x
      · subst h2
        simp only [insertKeySorted, if_neg h1, if_pos rfl]
        constructor
        · intro h; exact Or.inr h
        · intro h
          rcases h with rfl | h
          · exact List.mem_cons_self _ _
          · exact h
      · simp only [insertKeySorted, if_neg h1, if_neg h2, List.mem_cons, ih]
        tauto

theorem pairwise_insertKeySorted (k : Nat) {l : List Nat}
    (h : l.Pairwise (· < ·)) :
    (insertKeySorted k l).Pairwise (· < ·) := by
  induction l with
  | nil => simp [insertKeySorted]
  | cons x xs ih =>
    obtain ⟨hx, hxs⟩ := List.pairwise_cons.mp h
    by_cases h1 : k < x
    · rw [insertKeySorted, if_pos h1, List.pairwise_cons]
      refine ⟨?_, h⟩
      intro b hb
      rcases List.mem_cons.mp hb with rfl | hbt
      · exact h1
      · exact Nat.lt_trans h1 (hx b hbt)
    · by_cases h2 : k = x
      · rw [insertKeySorted, if_neg h1, if_pos h2]
        exact h
      · rw [insertKeySorted, if_neg h1, if_neg h2, List.pairwise_cons]
        refine ⟨?_, ih hxs⟩
        intro b hb
        rcases (mem_insertKeySorted k b xs).mp hb with rfl | hbt
        · exact Nat.lt_of_le_of_ne (Nat.le_of_not_lt h1) (Ne.symm h2)
        · exact hx b hbt

theorem pairwise_sortedKeys (B : List AggRecord) :
    (sortedKeys B).Pairwise (· < ·) := by
  induction B with
  | nil => exact List.Pairwise.nil
  | cons r t ih => exact pairwise_insertKeySorted r.key ih

theorem mem_sortedKeys (B : List AggRecord) (k : Nat) :
    k ∈ sortedKeys B ↔ ∃ r ∈ B, r.key = k := by
  induction B with
  | nil => simp [sortedKeys]
  | cons r t ih =>
    show k ∈ insertKeySorted r.key (sortedKeys t) ↔ _
    rw [mem_insertKeySorted]
    simp only [List.mem_cons, ih]
    constructor
    · rintro (rfl | ⟨s, hs, rfl⟩)
      · exact ⟨r, Or.inl rfl, rfl⟩
      · exact ⟨s, Or.inr hs, rfl⟩
    · rintro ⟨s, rfl | hs, rfl⟩
      · exact Or.inl rfl
      · exact Or.inr ⟨s, hs, rfl⟩

theorem key_of_mem_groupOf {B : List AggRecord} {k : Nat} {r : AggRecord}
    (h : r ∈ groupOf B k) : r.key = k := by
  have := (List.mem_filter.mp h).2
  exact of_decide_eq_true this

theorem mem_groupOf {B : List AggRecord} {k : Nat} {r : AggRecord} :
    r ∈ groupOf B k ↔ r ∈ B ∧ r.key = k := by
  constructor
  · intro h
    exact ⟨(List.mem_filter.mp h).1, key_of_mem_groupOf h⟩
  · intro ⟨h1, h2⟩
    exact List.mem_filter.mpr ⟨h1, decide_eq_true h2⟩

theorem groupOf_ne_nil {B : List AggRecord} {k : Nat} :
    groupOf B k ≠ [] ↔ ∃ r ∈ B, r.key = k := by
  constructor
  · intro h
    match hg : groupOf B k with
    | [] => exact absurd hg h
    | r :: t =>
      have : r ∈ groupOf B k := hg ▸ List.mem_cons_self r t
      exact ⟨r, (mem_groupOf.mp this).1, (mem_groupOf.mp this).2⟩
  · rintro ⟨r, hr, rfl⟩ hnil
    have : r ∈ groupOf B r.key := mem_groupOf.mpr ⟨hr, rfl⟩
    rw [hnil] at this
    cases this

theorem count_filterMap_keys (f : Nat → Option AggRecord)
    (hf : ∀ k r, f k = some r → r.key = k) :
    ∀ ks : List Nat, ks.Nodup → ∀ k : Nat,
      ((ks.filterMap f).filter (fun r => r.key = k)).length =
        if k ∈ ks ∧ (f k).isSome then 1 else 0 := by
  intro ks
  induction ks with
  | nil => intro _ k; simp
  | cons a ks ih =>
    intro hnd k
    have hna : a ∉ ks := (List.nodup_cons.mp hnd).1
    have hnks : ks.Nodup := (List.nodup_cons.mp hnd).2
    rw [List.filterMap_cons]
    cases hfa : f a with
    | none =>
      rw [ih hnks k]
      by_cases hk : k = a
      · subst hk
        have h1 : ¬(k ∈ ks ∧ (f k).isSome) := fun h => hna h.1
        have h2 : ¬(k ∈ k :: ks ∧ (f k).isSome) := by
          rw [hfa]; rintro ⟨_, h⟩; cases h
        rw [if_neg h1, if_neg h2]
      · have : k ∈ a :: ks ↔ k ∈ ks := by
          simp [List.mem_cons, hk]
        simp only [this]
    | some r =>
      have hrk : r.key = a := hf a r hfa
      by_cases hk : k = a
      · subst hk
        rw [List.filter_cons_of_pos (by simp [hrk]), List.length_cons, ih hnks k]
        have h1 : ¬(k ∈ ks ∧ (f k).isSome) := fun h => hna h.1
        have h2 : k ∈ k :: ks ∧ (f k).isSome := by
          rw [hfa]; exact ⟨List.mem_cons_self _ _, rfl⟩
        rw [if_neg h1, if_pos h2]
      · rw [List.filter_cons_of_neg (by simp [hrk, Ne.symm hk]), ih hnks k]
        have : k ∈ a :: ks ↔ k ∈ ks := by simp [List.mem_cons, hk]
        simp only [this]

theorem firstMaxRecord_groupOf_key {B : List AggRecord} {k : Nat}
    {r : AggRecord} (h : firstMaxRecord (groupOf B k) = some r) :
    r.key = k :=
  key_of_mem_groupOf (firstMaxRecord_spec h).1

/-- C1: the reduction (groupby on the grouping key, then per-group idxmax
on the counter) yields exactly one reduced record per distinct grouping
key present in the batch (and none for absent keys), and every reduced
record's counter is the maximum counter among the batch records sharing
its key. -/
theorem reduce_one_record_per_key_with_max_counter
    (B : List AggRecord) (k : Nat) :
    (((reduce B).filter (fun r => r.key = k)).length =
      if groupOf B k = [] then 0 else 1) ∧
    ∀ r ∈ reduce B, r.counter = countersMax (groupOf B r.key) := by
  constructor
  · have hnd : (sortedKeys B).Nodup :=
      (pairwise_sortedKeys B).imp (fun h => Nat.ne_of_lt h)
    rw [reduce, count_filterMap_keys _ (fun _ _ h => firstMaxRecord_groupOf_key h)
        (sortedKeys B) hnd k]
    by_cases hg : groupOf B k = []
    · rw [if_pos hg, if_neg]
      rintro ⟨hk, _⟩
      exact (groupOf_ne_nil.mpr ((mem_sortedKeys B k).mp hk)) hg
    · rw [if_neg hg, if_pos]
      obtain ⟨r, hr⟩ := firstMaxRecord_isSome hg
      exact ⟨(mem_sortedKeys B k).mpr (groupOf_ne_nil.mp hg), hr ▸ rfl⟩
  · intro r hr
    obtain ⟨k, _, hfk⟩ := List.mem_filterMap.mp hr
    have hk : r.key = k := firstMaxRecord_groupOf_key hfk
    rw [hk]
    exact (firstMaxRecord_spec hfk).2

theorem pairwise_filterMap_keys (f : Nat → Option AggRecord)
    (hf : ∀ k r, f k = some r → r.key = k) :
    ∀ ks : List Nat, ks.Pairwise (· < ·) →
      (ks.filterMap f).Pairwise (fun a b => a.key < b.key) := by
  intro ks
  induction ks with
  | nil => intro _; simp
  | cons a ks ih =>
    intro h
    obtain ⟨ha, hks⟩ := List.pairwise_cons.mp h
    rw [List.filterMap_cons]
    cases hfa : f a with
    | none => exact ih hks
    | some r =>
      rw [List.pairwise_cons]
      refine ⟨?_, ih hks⟩
      intro b hb
      obtain ⟨k, hk, hfk⟩ := List.mem_filterMap.mp hb
      rw [hf a r hfa, hf k b hfk]
      exact ha k hk

theorem pairwise_reduce_keys (B : List AggRecord) :
    (reduce B).Pairwise (fun a b => a.key < b.key) :=
  pairwise_filterMap_keys _ (fun _ _ h => firstMaxRecord_groupOf_key h)
    (sortedKeys B) (pairwise_sortedKeys B)

theorem find?_min_key {p : AggRecord → Bool} :
    ∀ {l : List AggRecord} {r : AggRecord},
      l.Pairwise (fun a b => a.key < b.key) → l.find? p = some r →
      ∀ s ∈ l, p s → r.key ≤ s.key := by
  intro l
  induction l with
  | nil => intro r _ h; cases h
  | cons a t ih =>
    intro r hpw hfind s hs hps
    obtain ⟨ha, ht⟩ := List.pairwise_cons.mp hpw
    cases hpa : p a with
    | true =>
      rw [List.find?_cons_of_pos _ hpa, Option.some_inj] at hfind
      subst hfind
      rcases List.mem_cons.mp hs with rfl | hst
      · exact Nat.le_refl _
      · exact Nat.le_of_lt (ha s hst)
    | false =>
      rw [List.find?_cons_of_neg _ (by simp [hpa])] at hfind
      rcases List.mem_cons.mp hs with rfl | hst
      · rw [hps] at hpa; cases hpa
      · exact ih ht hfind s hst hps

theorem reduce_ne_nil {B : List AggRecord} (h : B ≠ []) : reduce B ≠ [] := by
  match B, h with
  | r :: t, _ =>
    have hk : r.key ∈ sortedKeys (r :: t) :=
      (mem_sortedKeys _ _).mpr ⟨r, List.mem_cons_self r t, rfl⟩
    have hg : groupOf (r :: t) r.key ≠ [] :=
      groupOf_ne_nil.mpr ⟨r, List.mem_cons_self r t, rfl⟩
    obtain ⟨m, hm⟩ := firstMaxRecord_isSome hg
    exact List.ne_nil_of_mem (List.mem_filterMap.mpr ⟨r.key, hk, hm⟩)

/-- C2 counterexample: in the batch `[⟨2,5,0⟩, ⟨1,5,1⟩]` the two grouping
keys tie at the maximum counter 5, and the key appearing first in the
batch is 2; yet the code (idxmax over the key-ascending reduced table)
selects the record with key 1, not key 2. -/
theorem leading_tie_not_broken_by_batch_order :
    (List.head? [(⟨2, 5, 0⟩ : AggRecord), ⟨1, 5, 1⟩]).map AggRecord.key =
      some 2 ∧
    (⟨2, 5, 0⟩ : AggRecord).counter = (⟨1, 5, 1⟩ : AggRecord).counter ∧
    leadingRecord [⟨2, 5, 0⟩, ⟨1, 5, 1⟩] = some ⟨1, 5, 1⟩ ∧
    (leadingRecord [⟨2, 5, 0⟩, ⟨1, 5, 1⟩]).map AggRecord.key ≠ some 2 := by
  decide

/-- C2 amended: for every non-empty batch the leading record exists, is a
row of the reduced table, carries the maximum counter across all grouping
keys, and a tie on that maximum is broken by the smallest grouping key
(the first group in pandas' key-ascending group order), not by first
appearance in the batch. -/
theorem leading_has_max_counter_tie_broken_by_least_key
    (B : List AggRecord) (h : B ≠ []) :
    ∃ r, leadingRecord B = some r ∧ r ∈ reduce B ∧
      (∀ s ∈ reduce B, s.counter ≤ r.counter) ∧
      (∀ s ∈ reduce B, s.counter = r.counter → r.key ≤ s.key) := by
  obtain ⟨r, hr⟩ := firstMaxRecord_isSome (reduce_ne_nil h)
  obtain ⟨hmem, hmax⟩ := firstMaxRecord_spec hr
  refine ⟨r, hr, hmem, ?_, ?_⟩
  · intro s hs
    rw [hmax]
    exact le_countersMax hs
  · intro s hs hsc
    exact find?_min_key (pairwise_reduce_keys B) hr s hs
      (decide_eq_true (hsc.trans hmax))

theorem leading_has_max_counter_tie_broken_by_least_key_witness :
    ∃ r, leadingRecord [(⟨2, 5, 0⟩ : AggRecord), ⟨1, 5, 1⟩] = some r ∧
      r ∈ reduce [(⟨2, 5, 0⟩ : AggRecord), ⟨1, 5, 1⟩] ∧
      (∀ s ∈ reduce [(⟨2, 5, 0⟩ : AggRecord), ⟨1, 5, 1⟩],
        s.counter ≤ r.counter) ∧
      (∀ s ∈ reduce [(⟨2, 5, 0⟩ : AggRecord), ⟨1, 5, 1⟩],
        s.counter = r.counter → r.key ≤ s.key) :=
  leading_has_max_counter_tie_broken_by_least_key
    [⟨2, 5, 0⟩, ⟨1, 5, 1⟩] (by decide)

theorem eq_of_pairwise_lt_of_mem_iff :
    ∀ {l₁ l₂ : List Nat}, l₁.Pairwise (· < ·) → l₂.Pairwise (· < ·) →
      (∀ x, x ∈ l₁ ↔ x ∈ l₂) → l₁ = l₂ := by
  intro l₁
  induction l₁ with
  | nil =>
    intro l₂ _ _ hmem
    cases l₂ with
    | nil => rfl
    | cons b t₂ => exact absurd ((hmem b).mpr (List.mem_cons_self b t₂)) (by simp)
  | cons a t₁ ih =>
    intro l₂ h₁ h₂ hmem
    cases l₂ with
    | nil => exact absurd ((hmem a).mp (List.mem_cons_self a t₁)) (by simp)
    | cons b t₂ =>
      obtain ⟨ha, ht₁⟩ := List.pairwise_cons.mp h₁
      obtain ⟨hb, ht₂⟩ := List.pairwise_cons.mp h₂
      have hab : a = b := by
        rcases List.mem_cons.mp ((hmem a).mp (List.mem_cons_self a t₁)) with h | h
        · exact h
        · rcases List.mem_cons.mp ((hmem b).mpr (List.mem_cons_self b t₂)) with h' | h'
          · exact h'.symm
          · exact absurd (Nat.lt_trans (hb a h) (ha b h')) (Nat.lt_irrefl b)
      subst hab
      have htmem : ∀ x, x ∈ t₁ ↔ x ∈ t₂ := by
        intro x
        constructor
        · intro hx
          rcases List.mem_cons.mp ((hmem x).mp (List.mem_cons_of_mem a hx)) with h | h
          · exact absurd (h ▸ ha x hx) (Nat.lt_irrefl x)
          · exact h
        · intro hx
          rcases List.mem_cons.mp ((hmem x).mpr (List.mem_cons_of_mem a hx)) with h | h
          · exact absurd (h ▸ hb x hx) (Nat.lt_irrefl x)
          · exact h
      rw [ih ht₁ ht₂ htmem]

theorem sortedKeys_append_self (B : List AggRecord) :
    sortedKeys (B ++ B) = sortedKeys B := by
  apply eq_of_pairwise_lt_of_mem_iff (pairwise_sortedKeys _) (pairwise_sortedKeys _)
  intro x
  rw [mem_sortedKeys, mem_sortedKeys]
  constructor
  · rintro ⟨r, hr, rfl⟩
    rcases List.mem_append.mp hr with h | h
    · exact ⟨r, h, rfl⟩
    · exact ⟨r, h, rfl⟩
  · rintro ⟨r, hr, rfl⟩
    exact ⟨r, List.mem_append.mpr (Or.inl hr), rfl⟩

theorem groupOf_append (B₁ B₂ : List AggRecord) (k : Nat) :
    groupOf (B₁ ++ B₂) k = groupOf B₁ k ++ groupOf B₂ k :=
  List.filter_append B₁ B₂

theorem firstMaxRecord_append_self (l : List AggRecord) :
    firstMaxRecord (l ++ l) = firstMaxRecord l := by
  have hc : countersMax (l ++ l) = countersMax l := by
    rw [countersMax_append, Nat.max_self]
  rw [firstMaxRecord, hc, List.find?_append, firstMaxRecord]
  cases hf : l.find? (fun r => r.counter = countersMax l) with
  | none => rfl
  | some r => rfl

/-- C3: the reduction is idempotent under record duplication — reducing
the concatenation `B ++ B` yields exactly the same reduced table as
reducing `B` alone. -/
theorem reduce_idempotent_under_duplication (B : List AggRecord) :
    reduce (B ++ B) = reduce B := by
  rw [reduce, reduce, sortedKeys_append_self]
  have hfun : (fun k => firstMaxRecord (groupOf (B ++ B) k)) =
      fun k => firstMaxRecord (groupOf B k) := by
    funext k
    rw [groupOf_append, firstMaxRecord_append_self]
  rw [hfun]

/-- Severity of a streamlit message box: `st.warning` vs `st.error`. -/
inductive Severity where
  | warning
  | error
deriving DecidableEq, Repr

/-- One streamlit message box: severity plus displayed text. -/
structure UIMessage where
  severity : Severity
  text : String
deriving DecidableEq, Repr

/-- Fuel-indexed chunker behind `split_frame`; the fuel is the list
length, enough for every positive `rows` since each step consumes at
least one element.  The fuel-exhausted branch is unreachable from
`split_frame` when `0 < rows`. -/
def splitAux {α : Type} (rows : Nat) : Nat → List α → List (List α)
  | _, [] => []
  | 0, _ :: _ => []
  | fuel + 1, a :: l => (a :: l).take rows :: splitAux rows fuel ((a :: l).drop rows)

/-- Embedding of `split_frame` (lines 82-84):
`[input_df.iloc[i:i + rows] for i in range(0, len(input_df), rows)]`. -/
def split_frame {α : Type} (input_df : List α) (rows : Nat) : List (List α) :=
  splitAux rows input_df.length input_df

/-- What `paginate_table` renders: either the early "no data" return
(lines 88-90), carrying only the warning box and no page view, sort
controls, or page-count metadata; or the full flow (lines 92-111),
carrying the reported total page count and the displayed page —
`none` standing for the `IndexError` of `pages[current_page - 1]`. -/
inductive PaginateResult (α : Type) where
  | noData (msg : UIMessage)
  | view (totalPages : Nat) (shownPage : Option (List α))
deriving DecidableEq

/-- Embedding of `paginate_table` (lines 87-111), taken at the point the
optional `sort_values` of line 100 has already been applied (that sort
permutes rows and preserves length; see the header note).  `batch_size`
is the page-size selection, `current_page` the 1-based page number. -/
def paginate_table {α : Type} (table_data : List α)
    (batch_size current_page : Nat) : PaginateResult α :=
  if table_data.isEmpty then
    PaginateResult.noData ⟨Severity.warning, "No data available."⟩
  else
    PaginateResult.view (max 1 (table_data.length / batch_size))
      ((split_frame table_data batch_size)[current_page - 1]?)

/-- The page-count metadata a `PaginateResult` reports, when any. -/
def totalPagesOf {α : Type} : PaginateResult α → Option Nat
  | PaginateResult.noData _ => none
  | PaginateResult.view tp _ => some tp

/-- The displayed page of a `PaginateResult`, when any. -/
def shownPageOf {α : Type} : PaginateResult α → Option (List α)
  | PaginateResult.noData _ => none
  | PaginateResult.view _ sp => sp

/-- Embedding of `fetch_voting_stats` (lines 26-44).  The database is an
oracle: `some (v, c)` when the connection and both count queries succeed,
`none` when any of them raises; `e` is the text of the raised exception.
The `except` branch emits the `st.error` box and yields `(0, 0)`. -/
def fetch_voting_stats (db : Option (Nat × Nat)) (e : String) :
    (Nat × Nat) × List UIMessage :=
  match db with
  | some (v, c) => ((v, c), [])
  | none => ((0, 0), [⟨Severity.error, "Error fetching voting stats: " ++ e⟩])

example : split_frame (List.range 5) 2 = [[0, 1], [2, 3], [4]] := by decide

example :
    paginate_table (List.range 5) 2 3 = PaginateResult.view 2 (some [4]) := by
  decide

theorem splitAux_flatten {α : Type} {rows : Nat} (hrows : 0 < rows) :
    ∀ fuel (l : List α), l.length ≤ fuel → (splitAux rows fuel l).flatten = l := by
  intro fuel
  induction fuel with
  | zero =>
    intro l hl
    rw [List.eq_nil_of_length_eq_zero (Nat.le_zero.mp hl)]
    rfl
  | succ fuel ih =>
    intro l hl
    cases l with
    | nil => rfl
    | cons a t =>
      rw [splitAux, List.flatten_cons, ih _ ?_, List.take_append_drop]
      have : ((a :: t).drop rows).length = (a :: t).length - rows :=
        List.length_drop rows (a :: t)
      rw [this]
      have hlen : (a :: t).length ≤ fuel + 1 := hl
      omega

theorem splitAux_nil {α : Type} (rows fuel : Nat) :
    splitAux rows fuel ([] : List α) = [] := by
  cases fuel <;> rfl

theorem splitAux_length {α : Type} {rows : Nat} (hrows : 0 < rows) :
    ∀ fuel (l : List α), l.length ≤ fuel →
      (splitAux rows fuel l).length = (l.length + rows - 1) / rows := by
  intro fuel
  induction fuel with
  | zero =>
    intro l hl
    rw [List.eq_nil_of_length_eq_zero (Nat.le_zero.mp hl)]
    show 0 = (0 + rows - 1) / rows
    rw [Nat.div_eq_of_lt (by omega)]
  | succ fuel ih =>
    intro l hl
    cases l with
    | nil =>
      show 0 = (0 + rows - 1) / rows
      rw [Nat.div_eq_of_lt (by omega)]
    | cons a t =>
      have hn : 1 ≤ (a :: t).length := by simp
      by_cases hcase : rows ≤ (a :: t).length
      · rw [splitAux, List.length_cons,
          ih _ (by rw [List.length_drop]; omega), List.length_drop]
        have h1 : (a :: t).length - rows + rows - 1 = (a :: t).length - 1 := by
          omega
        have h2 : (a :: t).length + rows - 1 = ((a :: t).length - 1) + rows := by
          omega
        rw [h1, h2, Nat.add_div_right _ hrows]
      · have hnil : (a :: t).drop rows = [] := List.drop_eq_nil_of_le (by omega)
        have h3 : 1 * rows ≤ (a :: t).length + rows - 1 := by omega
        have h4 : (a :: t).length + rows - 1 < (1 + 1) * rows := by omega
        rw [splitAux, hnil, splitAux_nil, List.length_cons,
          Nat.div_eq_of_lt_le h3 h4]
        rfl

theorem split_frame_length {α : Type} (l : List α) {rows : Nat}
    (h : 0 < rows) :
    (split_frame l rows).length = (l.length + rows - 1) / rows :=
  splitAux_length h l.length l (Nat.le_refl _)

/-- C7: for every input table (as it stands when the chunking begins,
i.e. after the optional sort) and every positive page size, concatenating
all the chunks of the pagination split, in page order, reproduces the
table exactly — no row duplicated or dropped. -/
theorem split_frame_concat_roundtrip {α : Type} (l : List α) (rows : Nat)
    (h : 0 < rows) : (split_frame l rows).flatten = l :=
  splitAux_flatten h l.length l (Nat.le_refl _)

theorem split_frame_concat_roundtrip_witness :
    0 < 2 ∧ (split_frame (List.range 5) 2).flatten = List.range 5 :=
  ⟨by decide, split_frame_concat_roundtrip (List.range 5) 2 (by decide)⟩

/-- C5: for every non-empty table and every positive page size, the total
page count `paginate_table` reports is `max 1 (row_count / page_size)`
(floor division), as computed at line 106. -/
theorem paginate_total_pages_formula {α : Type} (t : List α) (b i : Nat)
    (ht : t ≠ []) (hb : 0 < b) :
    totalPagesOf (paginate_table t b i) = some (max 1 (t.length / b)) := by
  rw [paginate_table, if_neg (by simp [List.isEmpty_iff, ht])]
  rfl

theorem paginate_total_pages_formula_witness :
    List.range 23 ≠ [] ∧ 0 < 10 ∧
      totalPagesOf (paginate_table (List.range 23) 10 1) =
        some (max 1 ((List.range 23).length / 10)) :=
  ⟨by decide, by decide,
    paginate_total_pages_formula (List.range 23) 10 1 (by decide) (by decide)⟩

/-- C6 counterexample: with a 23-row table and page size 10 the code
reports total_pages = 2 and page 1 indeed has 10 rows, but page 2 is the
chunk of rows 10..19 — it has 10 rows, not 13 as the claim states. -/
theorem pagination_23_rows_page2_has_10_rows_not_13 :
    totalPagesOf (paginate_table (List.range 23) 10 2) = some 2 ∧
    (shownPageOf (paginate_table (List.range 23) 10 1)).map List.length =
      some 10 ∧
    (shownPageOf (paginate_table (List.range 23) 10 2)).map List.length =
      some 10 ∧
    ¬(shownPageOf (paginate_table (List.range 23) 10 2)).map List.length =
      some 13 := by decide

/-- C6 amended: table of 23 rows, page size 10 — total_pages = 2, page 1
has 10 rows, page 2 has 10 rows; the remaining 3 rows sit in a third
chunk (chunk lengths are 10, 10, 3) that lies beyond the reported page
range. -/
theorem pagination_23_rows_scenario :
    totalPagesOf (paginate_table (List.range 23) 10 2) = some 2 ∧
    (shownPageOf (paginate_table (List.range 23) 10 1)).map List.length =
      some 10 ∧
    (shownPageOf (paginate_table (List.range 23) 10 2)).map List.length =
      some 10 ∧
    (split_frame (List.range 23) 10).map List.length = [10, 10, 3] := by
  decide

/-- C9: an empty input table short-circuits `paginate_table` to the
explicit "no data" warning and returns before any page view, sort
controls, or page-count metadata are produced. -/
theorem paginate_empty_short_circuits (α : Type) (b i : Nat) :
    paginate_table ([] : List α) b i =
      PaginateResult.noData ⟨Severity.warning, "No data available."⟩ ∧
    totalPagesOf (paginate_table ([] : List α) b i) = none ∧
    shownPageOf (paginate_table ([] : List α) b i) = none :=
  ⟨rfl, rfl, rfl⟩

/-- C10: for every non-empty table, every page size offered by the
selector, and every page index in the accepted range
`[1, max 1 (row_count / page_size)]`, the lookup
`pages[current_page - 1]` stays inside the chunk list, so displaying the
selected page never fails with an index error. -/
theorem paginate_page_lookup_in_bounds {α : Type} (t : List α) (b i : Nat)
    (ht : t ≠ []) (hb : b ∈ [10, 25, 50, 100])
    (h1 : 1 ≤ i) (h2 : i ≤ max 1 (t.length / b)) :
    ∃ pg, paginate_table t b i =
      PaginateResult.view (max 1 (t.length / b)) (some pg) := by
  have hb0 : 0 < b := by
    simp only [List.mem_cons, List.not_mem_nil, or_false] at hb
    omega
  have hn : 0 < t.length := List.length_pos.mpr ht
  have hlen : (split_frame t b).length = (t.length + b - 1) / b :=
    split_frame_length t hb0
  have hone : 1 ≤ (t.length + b - 1) / b := by
    rw [Nat.one_le_div_iff hb0]
    omega
  have hdiv : t.length / b ≤ (t.length + b - 1) / b :=
    Nat.div_le_div_right (by omega)
  have hmax : max 1 (t.length / b) ≤ (t.length + b - 1) / b :=
    Nat.max_le.mpr ⟨hone, hdiv⟩
  have hiL : i ≤ (split_frame t b).length := hlen ▸ Nat.le_trans h2 hmax
  have hidx : i - 1 < (split_frame t b).length := by omega
  have hsome : (split_frame t b)[i - 1]? =
      some ((split_frame t b).get ⟨i - 1, hidx⟩) := by
    rw [List.getElem?_eq_getElem hidx, List.get_eq_getElem]
  refine ⟨(split_frame t b).get ⟨i - 1, hidx⟩, ?_⟩
  rw [paginate_table, if_neg (by simp [List.isEmpty_iff, ht]), hsome]

theorem paginate_page_lookup_in_bounds_witness :
    (List.range 23 ≠ [] ∧ 10 ∈ [10, 25, 50, 100] ∧ 1 ≤ 2 ∧
      2 ≤ max 1 ((List.range 23).length / 10)) ∧
    ∃ pg, paginate_table (List.range 23) 10 2 =
      PaginateResult.view (max 1 ((List.range 23).length / 10)) (some pg) :=
  ⟨⟨by decide, by decide, by decide, by decide⟩,
    paginate_page_lookup_in_bounds (List.range 23) 10 2 (by decide)
      (by decide) (by decide) (by decide)⟩

/-- C8 counterexample: at a failing read the function does return
`(0, 0)` and does not raise, but the surfaced message comes from
`st.error` — its severity is `error`, and no warning-severity message is
surfaced, contrary to the claim's "surfaces a non-fatal warning". -/
theorem stats_failure_message_is_error_not_warning :
    (fetch_voting_stats none "connection refused").1 = (0, 0) ∧
    (fetch_voting_stats none "connection refused").2.map UIMessage.severity =
      [Severity.error] ∧
    ¬∃ m ∈ (fetch_voting_stats none "connection refused").2,
      m.severity = Severity.warning := by decide

/-- C8 amended: whenever the scalar stats read fails for any reason, it
returns the pair `(0, 0)` and surfaces a non-fatal error-severity message
(`st.error`) instead of raising, so the rest of the refresh pass still
runs — the embedding returns this value normally rather than propagating
an exception. -/
theorem stats_failure_returns_zero_pair_with_error_box (e : String) :
    fetch_voting_stats none e =
      ((0, 0), [⟨Severity.error, "Error fetching voting stats: " ++ e⟩]) :=
  rfl
